import Mathlib

/-!
Verification of the linkfield repository: a shallow embedding of the
move-heuristic correlator (`src/move_heuristics.rs`), the file metadata
serialization layer (`src/file_cache/meta.rs`), the in-memory/durable file
cache (`src/file_cache/cache.rs`, `src/file_cache.rs`) and the streaming
scan (`tests/sequential_scan.rs`), together with theorems settling the
specification claims about them.

Modelling conventions:
* Rust `u64`/`u32` values are `Nat` with explicit `% 2 ^ 64` where wrapping
  matters (the `as i64` cast in `score_pair`).
* `Instant` and `SystemTime` are `Nat` nanosecond counts; `Instant`
  subtraction saturates at zero like `Instant::duration_since`.
* The `f64` score arithmetic of `score_pair` is modelled over `ℚ`. Every
  quantity the code computes is a sum of at most four of the constants
  0.7, 0.4, 0.2, 0.1 compared against 0.5 and 1.0; on those sums and
  comparisons IEEE double arithmetic and exact rational arithmetic agree.
* Fallible operations return `Option`; emitted database writes are modelled
  as explicit lists of operations.
-/

namespace Linkfield


/-! ## Rust path functions

`Path::file_name` and `Path::extension` from the Rust standard library,
modelled on `/`-separated path strings. `file_name` is the last normal
component (skipping empty components and `.`, and returning `none` when the
path ends in `..`); `extension` is the part of the file name after its last
dot, provided that dot is not the leading character. -/

/-- Split a character list at every occurrence of `sep`, keeping empty
pieces, exactly like `String::split` / `str::split` on a single separator. -/
def splitOnChar (sep : Char) : List Char → List (List Char)
  | [] => [[]]
  | c :: rest =>
    if c = sep then [] :: splitOnChar sep rest
    else
      match splitOnChar sep rest with
      | [] => [[c]]
      | g :: gs => (c :: g) :: gs

def pathComponents (p : String) : List String :=
  ((splitOnChar '/' p.toList).map (fun l => String.mk l)).filter
    (fun s => !(s == "") && !(s == "."))

/-- Rust `str::starts_with`: `starts_with s pre` is true when `pre` is an
initial segment of `s`. -/
def starts_with (s pre : String) : Bool :=
  pre.toList.isPrefixOf s.toList

def file_name (p : String) : Option String :=
  match (pathComponents p).getLast? with
  | none => none
  | some s => if s = ".." then none else some s

def extension (p : String) : Option String :=
  match file_name p with
  | none => none
  | some f =>
    let rev := f.toList.reverse
    let afterRev := rev.takeWhile (fun c => c != '.')
    match rev.dropWhile (fun c => c != '.') with
    | [] => none
    | _ :: beforeRev => if beforeRev = [] then none else some ⟨afterRev.reverse⟩

/-! ## FileEvent and scoring (`src/move_heuristics.rs`) -/

/-- Result of `fs::Metadata::modified()`: `some` nanosecond timestamp for
`Ok(SystemTime)`, `none` for `Err`. -/
structure RMetadata where
  modified : Option Nat
  deriving DecidableEq, Repr

inductive FileEventKind where
  | Remove
  | Create
  deriving DecidableEq, Repr

/-- FileEvent from `move_heuristics.rs`: path, kind, `Instant` timestamp in
nanoseconds, optional size (u64), optional stat metadata. -/
structure FileEvent where
  path : String
  kind : FileEventKind
  time : Nat
  size : Option Nat
  metadata : Option RMetadata
  deriving DecidableEq, Repr

structure MoveCandidate where
  fromEv : FileEvent
  toEv : FileEvent
  score : ℚ
  deriving DecidableEq, Repr

def NANOS_PER_SEC : Nat := 1000000000

/-- SystemTime duration_since with `unwrap_or_default()`: saturating
subtraction, in whole seconds (`as_secs`). -/
def durSecsDefault (a b : Nat) : Nat := (a - b) / NANOS_PER_SEC

/-- Wrapping interpretation of a `u64` value as `i64` (`rs as i64`). -/
def asI64 (x : Nat) : Int :=
  if x % 2 ^ 64 < 2 ^ 63 then (x % 2 ^ 64 : Nat) else (x % 2 ^ 64 : Nat) - 2 ^ 64

/-- Wrapping `i64` arithmetic: reduce an integer into `[-2^63, 2^63)`. -/
def wrapI64 (z : Int) : Int := (z + 2 ^ 63) % 2 ^ 64 - 2 ^ 63

/-- The expression `(rs as i64 - cs as i64).abs()` under release-mode
(two's-complement wrapping) semantics. -/
def castDiffAbs (rs cs : Nat) : Int :=
  let d := wrapI64 (asI64 rs - asI64 cs)
  if d = -(2 ^ 63) then d else |d|

/-- Size component of `score_pair`. -/
def sizeScore (remove create : FileEvent) : ℚ :=
  match remove.size, create.size with
  | some rs, some cs =>
    if rs = cs ∧ rs > 0 then 7/10
    else if castDiffAbs rs cs < 16 then 4/10
    else 0
  | _, _ => 0

/-- Extension component of `score_pair`. -/
def extScore (remove create : FileEvent) : ℚ :=
  if extension remove.path = extension create.path then 2/10 else 0

/-- File name component of `score_pair`. -/
def nameScore (remove create : FileEvent) : ℚ :=
  match file_name remove.path, file_name create.path with
  | some rn, some cn =>
    if rn = cn then 2/10
    else if starts_with rn cn || starts_with cn rn then 1/10
    else 0
  | _, _ => 0

/-- Timestamp component of `score_pair`, including the
`unwrap_or_default()` on the failed direction of `duration_since`. -/
def timeScore (remove create : FileEvent) : ℚ :=
  match remove.metadata, create.metadata with
  | some rm, some cm =>
    match rm.modified, cm.modified with
    | some rmt, some cmt =>
      if durSecsDefault rmt cmt < 2 ∨ durSecsDefault cmt rmt < 2 then 1/10 else 0
    | _, _ => 0
  | _, _ => 0

/-- Embedding of `score_pair`: the clamped sum of the four components the
code accumulates in order. -/
def score_pair (remove create : FileEvent) : ℚ :=
  min (sizeScore remove create + extScore remove create +
    nameScore remove create + timeScore remove create) 1

/-! ## MoveHeuristics buffer -/

structure MoveHeuristics where
  remove_events : List FileEvent
  max_age : Nat
  deriving Repr

/-- Embedding of `MoveHeuristics::prune_old`, with the instant `now` made
explicit: retain the events strictly younger than `max_age`. -/
def prune_old (h : MoveHeuristics) (now : Nat) : MoveHeuristics :=
  { h with remove_events := h.remove_events.filter (fun e => now - e.time < h.max_age) }

/-- Embedding of `MoveHeuristics::add_remove`: push the event, then prune. -/
def add_remove (h : MoveHeuristics) (event : FileEvent) (now : Nat) : MoveHeuristics :=
  prune_old { h with remove_events := h.remove_events ++ [event] } now

/-- One step of the best-candidate selection loop in `pair_create`. -/
def stepBest (create : FileEvent) (best : Option MoveCandidate) (remove : FileEvent) :
    Option MoveCandidate :=
  let score := score_pair remove create
  if 1/2 < score then
    match best with
    | none => some ⟨remove, create, score⟩
    | some b => if b.score < score then some ⟨remove, create, score⟩ else some b
  else best

/-- Removal of the first buffered event whose path equals `p`
(`position` followed by `remove` in the source). -/
def removeFirstByPath : List FileEvent → String → List FileEvent
  | [], _ => []
  | e :: rest, p => if e.path = p then rest else e :: removeFirstByPath rest p

/-- Embedding of `MoveHeuristics::pair_create`: prune, scan the buffer for
the best candidate scoring above 0.5, delete the first buffered event with
the winning path, and return the candidate with the updated state. -/
def pair_create (h : MoveHeuristics) (create : FileEvent) (now : Nat) :
    Option MoveCandidate × MoveHeuristics :=
  let h1 := prune_old h now
  let best := h1.remove_events.foldl (stepBest create) none
  match best with
  | none => (none, h1)
  | some b =>
    (some b, { h1 with remove_events := removeFirstByPath h1.remove_events b.fromEv.path })

/-! ## Scoring formula as the specification states it

Claim C2 describes the scoring weights in exact arithmetic: the size-near
bonus uses the true numeric difference of the sizes and the timestamp bonus
requires the two modification times to lie within two seconds of each
other. This definition follows the claim words, to be compared against
`score_pair` above. -/

def distNanos (a b : Nat) : Nat := max a b - min a b

def claimSizeScore (remove create : FileEvent) : ℚ :=
  match remove.size, create.size with
  | some rs, some cs =>
    if rs = cs ∧ rs > 0 then 7/10
    else if |(rs : Int) - (cs : Int)| < 16 then 4/10
    else 0
  | _, _ => 0

def claimTimeScore (remove create : FileEvent) : ℚ :=
  match remove.metadata, create.metadata with
  | some rm, some cm =>
    match rm.modified, cm.modified with
    | some rmt, some cmt =>
      if distNanos rmt cmt < 2 * NANOS_PER_SEC then 1/10 else 0
    | _, _ => 0
  | _, _ => 0

def score_pair_claim (remove create : FileEvent) : ℚ :=
  min (claimSizeScore remove create + extScore remove create +
    nameScore remove create + claimTimeScore remove create) 1

/-! ## Helper lemmas for the buffer operations -/

/-- Invariant carried through the best-candidate fold of `pair_create`:
after processing the events of `seen`, the accumulator is `none` exactly
when nothing seen cleared the threshold, and otherwise records a candidate
drawn from `seen` with the maximal above-threshold score. -/
def GoodAcc (create : FileEvent) (seen : List FileEvent) :
    Option MoveCandidate → Prop
  | none => ∀ e ∈ seen, ¬ (1/2 < score_pair e create)
  | some b => b.toEv = create ∧ b.fromEv ∈ seen ∧
      b.score = score_pair b.fromEv create ∧ 1/2 < b.score ∧
      ∀ e ∈ seen, 1/2 < score_pair e create → score_pair e create ≤ b.score

/-- Concrete events used in the witnesses and the Claim C2 evaluation. -/
def evRemA : FileEvent :=
  { path := "dir/a.txt", kind := .Remove, time := 0, size := some 100, metadata := none }

def evCreA : FileEvent :=
  { path := "dir/a.txt", kind := .Create, time := 400000000, size := some 100, metadata := none }

def bufA : MoveHeuristics := { remove_events := [evRemA], max_age := 5000000000 }

def evRemB : FileEvent :=
  { path := "a.txt", kind := .Remove, time := 0, size := none, metadata := some ⟨some 0⟩ }

/-- Create event whose modification timestamp lies 100 seconds after the one
of `evRemB`. -/
def evCreB : FileEvent :=
  { path := "a.txt", kind := .Create, time := 0, size := none,
    metadata := some ⟨some 100000000000⟩ }

def evRemMk : FileEvent :=
  { path := "Makefile", kind := .Remove, time := 0, size := none, metadata := none }

def evCreRd : FileEvent :=
  { path := "README", kind := .Create, time := 0, size := none, metadata := none }

def evRemOld : FileEvent :=
  { path := "old.txt", kind := .Remove, time := 0, size := none, metadata := none }

def evRemNew : FileEvent :=
  { path := "new.txt", kind := .Remove, time := 500000, size := none, metadata := none }

def bufOld : MoveHeuristics := { remove_events := [evRemOld], max_age := 1000 }

/-! ## FileMeta binary serialization (`src/file_cache/meta.rs`)

`FileMeta` is encoded with `bincode`'s standard configuration: struct fields
in declaration order, unsigned integers in variable-length form (one byte
below 251; marker 251/252/253 followed by a 2/4/8-byte little-endian
payload), strings and paths as a varint byte length followed by the UTF-8
bytes (paths must convert to UTF-8, otherwise encoding errors), `Option` as
a 0/1 tag byte, and `SystemTime` as the duration since the Unix epoch
(seconds u64, subsecond nanoseconds u32, re-normalized through
`Duration::new` on decode). Bytes are modelled as `Nat` values below 256;
strings and OS paths are modelled as their byte sequences. -/

def isCont (c : Nat) : Bool := 0x80 ≤ c && c ≤ 0xBF

/-- UTF-8 validity of a byte sequence (the `str::from_utf8` check). -/
def utf8Valid : List Nat → Bool
  | [] => true
  | b :: rest =>
    if b ≤ 0x7F then utf8Valid rest
    else if 0xC2 ≤ b && b ≤ 0xDF then
      match rest with
      | c1 :: r => isCont c1 && utf8Valid r
      | [] => false
    else if b = 0xE0 then
      match rest with
      | c1 :: c2 :: r => (0xA0 ≤ c1 && c1 ≤ 0xBF) && isCont c2 && utf8Valid r
      | _ => false
    else if (0xE1 ≤ b && b ≤ 0xEC) || b = 0xEE || b = 0xEF then
      match rest with
      | c1 :: c2 :: r => isCont c1 && isCont c2 && utf8Valid r
      | _ => false
    else if b = 0xED then
      match rest with
      | c1 :: c2 :: r => (0x80 ≤ c1 && c1 ≤ 0x9F) && isCont c2 && utf8Valid r
      | _ => false
    else if b = 0xF0 then
      match rest with
      | c1 :: c2 :: c3 :: r => (0x90 ≤ c1 && c1 ≤ 0xBF) && isCont c2 && isCont c3 && utf8Valid r
      | _ => false
    else if 0xF1 ≤ b && b ≤ 0xF3 then
      match rest with
      | c1 :: c2 :: c3 :: r => isCont c1 && isCont c2 && isCont c3 && utf8Valid r
      | _ => false
    else if b = 0xF4 then
      match rest with
      | c1 :: c2 :: c3 :: r => (0x80 ≤ c1 && c1 ≤ 0x8F) && isCont c2 && isCont c3 && utf8Valid r
      | _ => false
    else false

/-- Little-endian byte expansion of the low `w` bytes of `x`. -/
def leBytes : Nat → Nat → List Nat
  | 0, _ => []
  | w + 1, x => (x % 256) :: leBytes w (x / 256)

/-- Read `w` little-endian bytes. -/
def leDecode : Nat → List Nat → Option (Nat × List Nat)
  | 0, bs => some (0, bs)
  | _ + 1, [] => none
  | w + 1, b :: rest =>
    match leDecode w rest with
    | none => none
    | some (v, r) => some (b + 256 * v, r)

/-- Bincode standard varint encoding of an unsigned integer. -/
def encVarint (x : Nat) : List Nat :=
  if x < 251 then [x]
  else if x < 2 ^ 16 then 251 :: leBytes 2 x
  else if x < 2 ^ 32 then 252 :: leBytes 4 x
  else 253 :: leBytes 8 x

/-- Bincode varint decoding of a u64. -/
def decVarintU64 : List Nat → Option (Nat × List Nat)
  | [] => none
  | b :: rest =>
    if b < 251 then some (b, rest)
    else if b = 251 then leDecode 2 rest
    else if b = 252 then leDecode 4 rest
    else if b = 253 then leDecode 8 rest
    else none

/-- Bincode varint decoding of a u32: the u64 and u128 markers are
rejected. -/
def decVarintU32 : List Nat → Option (Nat × List Nat)
  | [] => none
  | b :: rest =>
    if b < 251 then some (b, rest)
    else if b = 251 then leDecode 2 rest
    else if b = 252 then leDecode 4 rest
    else none

/-- Encoding of a string / path: varint byte length, then the bytes. -/
def encStr (s : List Nat) : List Nat := encVarint s.length ++ s

/-- Decoding of a string / path: read the length, take that many bytes,
validate them as UTF-8. -/
def decStr (bs : List Nat) : Option (List Nat × List Nat) :=
  match decVarintU64 bs with
  | none => none
  | some (n, rest) =>
    if n ≤ rest.length then
      if utf8Valid (rest.take n) then some (rest.take n, rest.drop n) else none
    else none

/-- Option encoding: tag byte 0 for `None`, 1 followed by the payload for
`Some`. -/
def encOpt {α : Type} (f : α → List Nat) : Option α → List Nat
  | none => [0]
  | some x => 1 :: f x

/-- Option decoding: any tag byte other than 0 or 1 is an error. -/
def decOpt {α : Type} (g : List Nat → Option (α × List Nat)) :
    List Nat → Option (Option α × List Nat)
  | [] => none
  | 0 :: rest => some (none, rest)
  | 1 :: rest =>
    match g rest with
    | none => none
    | some (x, r) => some (some x, r)
  | _ :: _ => none

/-- A `SystemTime` as the `Duration` since the Unix epoch that bincode
serializes: whole seconds (u64) and subsecond nanoseconds (u32). -/
structure RDuration where
  secs : Nat
  nanos : Nat
  deriving DecidableEq, Repr

def encDuration (d : RDuration) : List Nat := encVarint d.secs ++ encVarint d.nanos

/-- Duration decode: seconds, nanoseconds, then the `Duration::new`
carry-normalization of nanoseconds into seconds. -/
def decDuration (bs : List Nat) : Option (RDuration × List Nat) :=
  match decVarintU64 bs with
  | none => none
  | some (s, r1) =>
    match decVarintU32 r1 with
    | none => none
    | some (n, r2) => some (⟨s + n / NANOS_PER_SEC, n % NANOS_PER_SEC⟩, r2)

/-- FileMeta from `src/file_cache/meta.rs`: the path is the OS path's byte
sequence, sizes are u64 values, timestamps are epoch durations, the
extension is a UTF-8 byte sequence. -/
structure FileMeta where
  path : List Nat
  size : Nat
  modified : Option RDuration
  created : Option RDuration
  extension : Option (List Nat)
  deriving DecidableEq, Repr

/-- Embedding of `encode_to_vec(self, bincode::config::standard())`: fields
in order; fails exactly when the OS path is not valid UTF-8 (the one
encode-error source reachable from `FileMeta`'s field types). -/
def encode_to_vec (m : FileMeta) : Option (List Nat) :=
  if utf8Valid m.path then
    some (encStr m.path ++ encVarint m.size ++ encOpt encDuration m.modified ++
      encOpt encDuration m.created ++ encOpt encStr m.extension)
  else none

/-- Embedding of `FileMeta::serialize`: a failed encode is replaced by the
empty byte vector (`unwrap_or_else` in the source). -/
def serialize (m : FileMeta) : List Nat := (encode_to_vec m).getD []

/-- Embedding of the successful path of
`decode_from_slice(bytes, standard())` for `FileMeta`; trailing bytes are
ignored, as `decode_from_slice` returns the consumed length separately. -/
def parseFileMeta (bs : List Nat) : Option FileMeta :=
  match decStr bs with
  | none => none
  | some (p, r1) =>
    match decVarintU64 r1 with
    | none => none
    | some (sz, r2) =>
      match decOpt decDuration r2 with
      | none => none
      | some (md, r3) =>
        match decOpt decDuration r3 with
        | none => none
        | some (cr, r4) =>
          match decOpt decStr r4 with
          | none => none
          | some (ext, _) => some ⟨p, sz, md, cr, ext⟩

/-- The zero-valued record substituted on deserialization failure: empty
path, size 0, no timestamps, no extension. -/
def zeroFileMeta : FileMeta := ⟨[], 0, none, none, none⟩

/-- Embedding of `FileMeta::deserialize`: a failed decode is replaced by the
zero-valued record (`unwrap_or_else` in the source). -/
def deserialize (bs : List Nat) : FileMeta := (parseFileMeta bs).getD zeroFileMeta

/-- Range and validity constraints that every `FileMeta` reachable from the
Rust types satisfies: the Vec length fits in u64, `size` is a u64,
durations have u64 seconds and in-range subsecond nanoseconds, and string
fields hold valid UTF-8. The path's UTF-8 validity is exactly the condition
for the binary encoding to succeed. -/
abbrev WfDuration (d : RDuration) : Prop := d.secs < 2 ^ 64 ∧ d.nanos < NANOS_PER_SEC

abbrev WfMeta (m : FileMeta) : Prop :=
  utf8Valid m.path = true ∧ m.path.length < 2 ^ 64 ∧ m.size < 2 ^ 64 ∧
  (match m.modified with
  | none => True
  | some d => WfDuration d) ∧
  (match m.created with
  | none => True
  | some d => WfDuration d) ∧
  (match m.extension with
  | none => True
  | some e => utf8Valid e = true ∧ e.length < 2 ^ 64)

/-! ## FileCache in-memory map (`src/file_cache/cache.rs`, `src/file_cache.rs`)

The `files: HashMap<FileCachePath, FileMeta>` member is modelled as an
association list of path-byte keys to records; iteration order stands in
for the hash map's arbitrary order and key uniqueness is a hypothesis
where a statement needs it. Database writes are modelled as the list of
operations handed to the redb helpers. -/

abbrev FMap : Type := List (List Nat × FileMeta)

def lookupFM (l : FMap) (k : List Nat) : Option FileMeta :=
  (List.find? (fun p => p.1 == k) l).map Prod.snd

/-- Key-value semantics of `HashMap::insert`: the entry for `k` is replaced
or added (entry order is irrelevant to the map semantics). -/
def insertFM (l : FMap) (k : List Nat) (v : FileMeta) : FMap :=
  (k, v) :: List.filter (fun p => !(p.1 == k)) l

/-- Key-value semantics of `HashMap::remove`. -/
def removeFM (l : FMap) (k : List Nat) : FMap :=
  List.filter (fun p => !(p.1 == k)) l

inductive DbOp where
  | insertOp : List Nat → FileMeta → DbOp
  | removeOp : List Nat → DbOp
  deriving DecidableEq, Repr

structure FileCache where
  files : FMap

/-- Embedding of `FileCache::get`: a map lookup, returning the stored
record as a value. -/
def get (c : FileCache) (path : List Nat) : Option FileMeta :=
  lookupFM c.files path

/-- Embedding of `FileCache::update_file`, with the `FileMeta::from_path`
stat result made explicit: on stat failure nothing happens and no database
operation is emitted; otherwise the record is inserted in memory and one
insert is written through. -/
def update_file (c : FileCache) (path : List Nat) (statRes : Option FileMeta) :
    FileCache × List DbOp :=
  match statRes with
  | none => (c, [])
  | some meta => (⟨insertFM c.files path meta⟩, [DbOp.insertOp path meta])

/-- Embedding of `FileCache::remove_file`. -/
def remove_file (c : FileCache) (path : List Nat) : FileCache × List DbOp :=
  (⟨removeFM c.files path⟩, [DbOp.removeOp path])

/-- Embedding of `FileCache::diff_and_update`: stage removals (keys of the
current map absent from `new_files`), stage upserts (entries of `new_files`
new or structurally unequal to the stored record), hand both lists to the
batched database commit, then mirror them into the in-memory map. Returns
the updated cache and the two staged lists. -/
def stagedRemovals (files new_files : FMap) : List (List Nat) :=
  (files.map Prod.fst).filter (fun k => (lookupFM new_files k).isNone)

def stagedUpserts (files new_files : FMap) : FMap :=
  new_files.filter (fun p =>
    match lookupFM files p.1 with
    | some old => !(old == p.2)
    | none => true)

def diff_and_update (c : FileCache) (new_files : FMap) :
    FileCache × List (List Nat) × FMap :=
  let toRemove := stagedRemovals c.files new_files
  let toAdd := stagedUpserts c.files new_files
  let files1 := toRemove.foldl removeFM c.files
  let files2 := toAdd.foldl (fun acc p => insertFM acc p.1 p.2) files1
  (⟨files2⟩, toRemove, toAdd)

/-- Concrete records for the cache witnesses: the same path with two
different sizes. -/
def mA : FileMeta := ⟨[97], 1, none, none, none⟩

def mB : FileMeta := ⟨[97], 2, none, none, none⟩

/-! ## Streaming scan with batch commit (`tests/sequential_scan.rs`)

`scan_dir_sequential_streaming` walks a directory: per level it first
handles the plain files, accumulating `(path, meta)` pairs in a local batch
and their tree keys in `batch_keys`; when the batch reaches `batch_size`
it is committed to redb, every committed key is evicted from the tree's
entry map, the local batch is cleared, and the `on_batch` callback (when
present) is invoked with the level-local batch count; a trailing non-empty
batch is flushed the same way. Then it recurses into subdirectories,
passing `None` as the callback.

The tree-arena `FileCache` this test uses (`root`, `entries`,
`update_or_insert_file`, `add_dir`) is not part of the sources, so those
operations are modelled from the spec. The filesystem is an explicit tree;
`is_ignored` is an oracle on the name standing for the path; the state
additionally records, as specification instrumentation, the set of keys
flushed so far and a snapshot of the live data at every `on_batch`
callback. -/

structure Entry where
  name : String
  parent : Option Nat
  isDir : Bool
  meta : Option FileMeta
  deriving DecidableEq, Repr

mutual

inductive FsNode where
  | fileN : String → Option FileMeta → FsNode
  | dirN : String → FsDir → FsNode
  deriving Repr

inductive FsDir where
  | mkDir : List FsNode → FsDir
  deriving Repr
end

def FsDir.nodes : FsDir → List FsNode
  | .mkDir ns => ns

structure ScanCfg where
  root : Nat
  batchSize : Nat
  ign : String → Bool

/-- Snapshot taken inside each `on_batch` callback: the (already cleared)
batch buffer, the live entry map, the keys flushed so far, and the
level-local batch count passed to the callback. -/
structure ObsRec where
  batchAtObs : List (List Nat × FileMeta)
  entriesAtObs : List (Nat × Entry)
  flushedAtObs : List Nat
  countArg : Nat
  deriving DecidableEq, Repr

structure ScanSt where
  entries : List (Nat × Entry)
  nextId : Nat
  db : List (List Nat × FileMeta)
  dbCommits : Nat
  flushed : List Nat
  obs : List ObsRec
  deriving Repr

def idPresent (entries : List (Nat × Entry)) (k : Nat) : Bool :=
  entries.any (fun pr => pr.1 == k)

def findByParentName (entries : List (Nat × Entry)) (parent : Nat) (name : String) :
    Option (Nat × Entry) :=
  entries.find? (fun pr => pr.2.parent == some parent && pr.2.name == name)

/-- Modelled from the spec: sibling upsert of the path-tree cache (the
tree-arena `FileCache` is not under src). Looking up `(parent, name)`: if
present the entry's kind is replaced in place and the existing id returned;
otherwise a fresh id is allocated from the monotone counter and the entry
inserted. -/
def upsertEntry (st : ScanSt) (name : String) (parent : Nat) (isDir : Bool)
    (meta : Option FileMeta) : Nat × ScanSt :=
  match findByParentName st.entries parent name with
  | some pr =>
    let entries2 :=
      st.entries.map (fun q => if q.1 == pr.1 then (q.1, ⟨name, some parent, isDir, meta⟩) else q)
    (pr.1, { st with entries := entries2 })
  | none =>
    let entries2 := (st.nextId, ⟨name, some parent, isDir, meta⟩) :: st.entries
    (st.nextId, { st with entries := entries2, nextId := st.nextId + 1 })

/-- Modelled from the spec: `update_or_insert_file(name, parent, record)`
returns the existing id on an in-place update, a fresh id otherwise. -/
def update_or_insert_file (st : ScanSt) (name : String) (parent : Nat)
    (meta : FileMeta) : Nat × ScanSt :=
  upsertEntry st name parent false (some meta)

/-- Modelled from the spec: `add_dir(name, parent)` inserts or refreshes a
directory entry under `parent`, returning its id. -/
def add_dir (st : ScanSt) (name : String) (parent : Nat) : Nat × ScanSt :=
  upsertEntry st name parent true none

/-- Eviction `cache.entries.remove(key)`. -/
def entriesRemove (entries : List (Nat × Entry)) (k : Nat) : List (Nat × Entry) :=
  entries.filter (fun pr => !(pr.1 == k))

/-- One batch flush: `update_redb_batch_commit` (one transaction appending
the batch to the store), eviction of every committed key from the entry
map, clearing of the local buffers, and the `on_batch` callback when one
was passed (recording the observation snapshot). -/
def flushBatch (st : ScanSt) (batch : List (List Nat × FileMeta))
    (keys : List Nat) (cb : Bool) (countArg : Nat) : ScanSt :=
  let st1 := { st with db := st.db ++ batch, dbCommits := st.dbCommits + 1 }
  let entries2 := keys.foldl entriesRemove st1.entries
  let st2 := { st1 with entries := entries2, flushed := st1.flushed ++ keys }
  if cb then
    { st2 with obs := st2.obs ++ [⟨[], st2.entries, st2.flushed, countArg⟩] }
  else st2

structure LoopAcc where
  st : ScanSt
  batch : List (List Nat × FileMeta)
  batchKeys : List Nat
  batchCount : Nat

/-- The body of the file loop of `scan_dir_sequential_streaming` for one
directory entry: directories are skipped here, ignored files are skipped,
a failed stat is skipped, and otherwise the file is upserted into the tree,
pushed onto the batch, and the batch is flushed when it reaches
`batch_size`. -/
def processFile (cfg : ScanCfg) (cb : Bool) (parentKey : Nat)
    (acc : LoopAcc) : FsNode → LoopAcc
  | .dirN _ _ => acc
  | .fileN name none => if cfg.ign name then acc else acc
  | .fileN name (some meta) =>
    if cfg.ign name then acc
    else
      let r := update_or_insert_file acc.st name parentKey meta
      let batch2 := acc.batch ++ [(meta.path, meta)]
      let keys2 := acc.batchKeys ++ [r.1]
      if cfg.batchSize ≤ batch2.length then
        ⟨flushBatch r.2 batch2 keys2 cb (acc.batchCount + 1), [], [],
          acc.batchCount + 1⟩
      else
        ⟨r.2, batch2, keys2, acc.batchCount⟩

mutual

/-- Embedding of `scan_dir_sequential_streaming`: ignore check, file loop
with batching, trailing flush, then sequential recursion into
subdirectories with `None` as the callback. -/
def scanDir (cfg : ScanCfg) (st : ScanSt) (dname : String) (d : FsDir)
    (parent : Option Nat) (cb : Bool) : ScanSt :=
  match d with
  | .mkDir nodes =>
    let parentKey := parent.getD cfg.root
    if cfg.ign dname then st
    else
      let acc := nodes.foldl (processFile cfg cb parentKey) ⟨st, [], [], 0⟩
      let st1 :=
        if acc.batch.isEmpty then acc.st
        else flushBatch acc.st acc.batch acc.batchKeys cb (acc.batchCount + 1)
      scanSubdirs cfg st1 nodes parentKey

/-- The subdirectory loop: each subdirectory gets a tree entry via
`add_dir` and is scanned with its own local batch and no callback. -/
def scanSubdirs (cfg : ScanCfg) (st : ScanSt) (nodes : List FsNode)
    (parentKey : Nat) : ScanSt :=
  match nodes with
  | [] => st
  | .fileN _ _ :: rest => scanSubdirs cfg st rest parentKey
  | .dirN name sub :: rest =>
    let r := add_dir st name parentKey
    scanSubdirs cfg (scanDir cfg r.2 name sub (some r.1) false) rest parentKey
end

def initScanSt (rootName : String) : ScanSt :=
  { entries := [(0, ⟨rootName, none, true, none⟩)], nextId := 1, db := [],
    dbCommits := 0, flushed := [], obs := [] }

/-- Health of one recorded `on_batch` observation: the batch buffer had
been cleared and no flushed key was resident in the entry map. -/
def ObsOk (o : ObsRec) : Prop :=
  o.batchAtObs = [] ∧ ∀ k ∈ o.flushedAtObs, idPresent o.entriesAtObs k = false

/-- Scan-state invariant: entry ids and flushed keys stay below the
id counter, flushed keys are never resident, recorded observations are
healthy, and the callback has fired at most once per database commit. -/
def ScanInv (st : ScanSt) : Prop :=
  (∀ pr ∈ st.entries, pr.1 < st.nextId) ∧
  (∀ k ∈ st.flushed, k < st.nextId) ∧
  (∀ k ∈ st.flushed, idPresent st.entries k = false) ∧
  (∀ o ∈ st.obs, ObsOk o) ∧
  st.obs.length ≤ st.dbCommits

def LoopInv (acc : LoopAcc) : Prop :=
  ScanInv acc.st ∧ ∀ k ∈ acc.batchKeys, k < acc.st.nextId

def cfgScanW : ScanCfg := ⟨0, 1, fun _ => false⟩

def treeScanW : FsDir := .mkDir [.fileN "a" (some mA)]

def cfgScanCx : ScanCfg := ⟨0, 1, fun _ => false⟩

def treeScanCx : FsDir := .mkDir [.dirN "d" (.mkDir [.fileN "a" (some mA)])]

/-! ## Theorems -/

theorem stepBest_none_def (create x : FileEvent) :
    stepBest create none x =
      if 1/2 < score_pair x create then some ⟨x, create, score_pair x create⟩ else none :=
  rfl

theorem stepBest_some_def (create x : FileEvent) (b : MoveCandidate) :
    stepBest create (some b) x =
      if 1/2 < score_pair x create then
        (if b.score < score_pair x create then some ⟨x, create, score_pair x create⟩ else some b)
      else some b :=
  rfl

theorem stepBest_pos_none {create x : FileEvent}
    (hx : 1/2 < score_pair x create) :
    stepBest create none x = some ⟨x, create, score_pair x create⟩ := by
  rw [stepBest_none_def, if_pos hx]

theorem stepBest_pos_some_gt {create x : FileEvent} {b : MoveCandidate}
    (hx : 1/2 < score_pair x create) (hlt : b.score < score_pair x create) :
    stepBest create (some b) x = some ⟨x, create, score_pair x create⟩ := by
  rw [stepBest_some_def, if_pos hx, if_pos hlt]

theorem stepBest_pos_some_le {create x : FileEvent} {b : MoveCandidate}
    (hx : 1/2 < score_pair x create) (hlt : ¬ b.score < score_pair x create) :
    stepBest create (some b) x = some b := by
  rw [stepBest_some_def, if_pos hx, if_neg hlt]

theorem stepBest_neg {create x : FileEvent}
    (hx : ¬ 1/2 < score_pair x create) (acc : Option MoveCandidate) :
    stepBest create acc x = acc := by
  match acc with
  | none => rw [stepBest_none_def, if_neg hx]
  | some b => rw [stepBest_some_def, if_neg hx]

theorem goodAcc_step {create : FileEvent} {seen : List FileEvent}
    {acc : Option MoveCandidate} (hg : GoodAcc create seen acc) (x : FileEvent) :
    GoodAcc create (seen ++ [x]) (stepBest create acc x) := by
  by_cases hx : 1/2 < score_pair x create
  · match acc with
    | none =>
      rw [stepBest_pos_none hx]
      refine ⟨rfl, by simp, rfl, hx, ?_⟩
      intro e he hs
      rcases List.mem_append.mp he with h1 | h1
      · exact absurd hs (hg e h1)
      · have hex : e = x := List.mem_singleton.mp h1
        subst hex; exact le_rfl
    | some b =>
      obtain ⟨hto, hmem, hsc, hth, hmax⟩ := hg
      by_cases hlt : b.score < score_pair x create
      · rw [stepBest_pos_some_gt hx hlt]
        refine ⟨rfl, by simp, rfl, hx, ?_⟩
        intro e he hs
        rcases List.mem_append.mp he with h1 | h1
        · exact le_of_lt (lt_of_le_of_lt (hmax e h1 hs) hlt)
        · have hex : e = x := List.mem_singleton.mp h1
          subst hex; exact le_rfl
      · rw [stepBest_pos_some_le hx hlt]
        refine ⟨hto, List.mem_append_left _ hmem, hsc, hth, ?_⟩
        intro e he hs
        rcases List.mem_append.mp he with h1 | h1
        · exact hmax e h1 hs
        · have hex : e = x := List.mem_singleton.mp h1
          subst hex; exact le_of_not_lt hlt
  · rw [stepBest_neg hx]
    match acc with
    | none =>
      intro e he
      rcases List.mem_append.mp he with h1 | h1
      · exact hg e h1
      · have hex : e = x := List.mem_singleton.mp h1
        subst hex; exact hx
    | some b =>
      obtain ⟨hto, hmem, hsc, hth, hmax⟩ := hg
      refine ⟨hto, List.mem_append_left _ hmem, hsc, hth, ?_⟩
      intro e he hs
      rcases List.mem_append.mp he with h1 | h1
      · exact hmax e h1 hs
      · have hex : e = x := List.mem_singleton.mp h1
        subst hex; exact absurd hs hx

theorem goodAcc_foldl (create : FileEvent) :
    ∀ (l seen : List FileEvent) (acc : Option MoveCandidate),
      GoodAcc create seen acc →
      GoodAcc create (seen ++ l) (l.foldl (stepBest create) acc) := by
  intro l
  induction l with
  | nil => intro seen acc hg; simpa using hg
  | cons x rest ih =>
    intro seen acc hg
    have h1 := ih (seen ++ [x]) (stepBest create acc x) (goodAcc_step hg x)
    simpa using h1

theorem goodAcc_run (create : FileEvent) (l : List FileEvent) :
    GoodAcc create l (l.foldl (stepBest create) none) := by
  have h := goodAcc_foldl create l [] none (by intro e he; cases he)
  simpa using h

theorem mem_removeFirstByPath {e : FileEvent} :
    ∀ {l : List FileEvent} {p : String}, e ∈ removeFirstByPath l p → e ∈ l := by
  intro l
  induction l with
  | nil => intro p h; cases h
  | cons x rest ih =>
    intro p h
    unfold removeFirstByPath at h
    by_cases hx : x.path = p
    · rw [if_pos hx] at h; exact List.mem_cons_of_mem _ h
    · rw [if_neg hx] at h
      rcases List.mem_cons.mp h with h1 | h1
      · rw [h1]; exact List.mem_cons_self _ _
      · exact List.mem_cons_of_mem _ (ih h1)

theorem length_removeFirstByPath {p : String} :
    ∀ {l : List FileEvent}, (∃ e ∈ l, e.path = p) →
      (removeFirstByPath l p).length + 1 = l.length := by
  intro l
  induction l with
  | nil => rintro ⟨e, he, -⟩; cases he
  | cons x rest ih =>
    rintro ⟨e, he, hep⟩
    unfold removeFirstByPath
    by_cases hx : x.path = p
    · rw [if_pos hx]; rfl
    · rw [if_neg hx]
      rcases List.mem_cons.mp he with h1 | h1
      · rw [h1] at hep; exact absurd hep hx
      · simp only [List.length_cons]
        rw [← ih ⟨e, h1, hep⟩]

theorem mem_prune_old {h : MoveHeuristics} {now : Nat} {e : FileEvent} :
    e ∈ (prune_old h now).remove_events → e ∈ h.remove_events ∧ now - e.time < h.max_age := by
  intro hm
  unfold prune_old at hm
  simp only [List.mem_filter, decide_eq_true_eq] at hm
  exact hm

theorem pair_create_def (h : MoveHeuristics) (create : FileEvent) (now : Nat) :
    pair_create h create now =
      match (prune_old h now).remove_events.foldl (stepBest create) none with
      | none => (none, prune_old h now)
      | some b =>
        (some b,
          { prune_old h now with
              remove_events := removeFirstByPath (prune_old h now).remove_events b.fromEv.path }) :=
  rfl

/-! ## Claim theorems for the move heuristics -/

/-- Claim C1: `pair_create` first prunes, returns a candidate exactly when
some remaining buffered remove scores above 0.5 against the create, the
candidate carries the maximal such score, exactly one buffered remove with
the winning path is deleted, and on failure the buffer is left as pruned. -/
theorem CLAIM_C1 (h : MoveHeuristics) (create : FileEvent) (now : Nat) :
    ((pair_create h create now).1.isSome ↔
      ∃ e ∈ (prune_old h now).remove_events, 1/2 < score_pair e create) ∧
    (∀ b, (pair_create h create now).1 = some b →
      b.toEv = create ∧
      b.fromEv ∈ (prune_old h now).remove_events ∧
      b.score = score_pair b.fromEv create ∧ 1/2 < b.score ∧
      (∀ e ∈ (prune_old h now).remove_events,
        1/2 < score_pair e create → score_pair e create ≤ b.score) ∧
      (pair_create h create now).2.remove_events =
        removeFirstByPath (prune_old h now).remove_events b.fromEv.path ∧
      (pair_create h create now).2.remove_events.length + 1 =
        (prune_old h now).remove_events.length) ∧
    ((pair_create h create now).1 = none →
      (pair_create h create now).2.remove_events = (prune_old h now).remove_events) := by
  have hrun := goodAcc_run create (prune_old h now).remove_events
  rcases hb : (prune_old h now).remove_events.foldl (stepBest create) none with _ | b
  · rw [hb] at hrun
    simp only [pair_create_def, hb]
    refine ⟨?_, ?_, ?_⟩
    · simp only [Option.isSome_none, Bool.false_eq_true, false_iff]
      rintro ⟨e, he, hs⟩
      exact hrun e he hs
    · intro b hbeq; simp at hbeq
    · intro _; trivial
  · rw [hb] at hrun
    obtain ⟨hto, hmem, hsc, hth, hmax⟩ := hrun
    simp only [pair_create_def, hb]
    refine ⟨?_, ?_, ?_⟩
    · simp only [Option.isSome_some, true_iff]
      exact ⟨b.fromEv, hmem, hsc ▸ hth⟩
    · intro b' hbeq
      simp only [Option.some.injEq] at hbeq
      subst hbeq
      refine ⟨hto, hmem, hsc, hth, hmax, rfl, ?_⟩
      exact length_removeFirstByPath ⟨b.fromEv, hmem, rfl⟩
    · intro hnone; simp at hnone

/-- Witness for Claim C1 at a concrete buffer: a same-path same-size create
pairs with the buffered remove. -/
theorem CLAIM_C1_witness :
    (pair_create bufA evCreA 500000000).1.isSome := by
  have hsc : 1/2 < score_pair evRemA evCreA := by
    have hs : sizeScore evRemA evCreA = 7/10 := rfl
    have he : extScore evRemA evCreA = 2/10 := rfl
    have hn : nameScore evRemA evCreA = 2/10 := rfl
    have ht : timeScore evRemA evCreA = 0 := rfl
    rw [score_pair, hs, he, hn, ht, min_def]
    norm_num
  exact (CLAIM_C1 bufA evCreA 500000000).1.mpr ⟨evRemA, by decide, hsc⟩

/-- Failing input for Claim C2: two events whose modification timestamps lie
100 seconds apart. The code still awards the timestamp bonus, because the
failed direction of `SystemTime::duration_since` is collapsed to a zero
duration by `unwrap_or_default()`, making the two-second test vacuous: the
claim formula gives 0.4 while the code computes 0.5. -/
theorem CLAIM_C2 :
    score_pair evRemB evCreB = 1/2 ∧
    score_pair_claim evRemB evCreB = 2/5 ∧
    distNanos 0 100000000000 = 100 * NANOS_PER_SEC := by
  refine ⟨?_, ?_, by decide⟩
  · have hs : sizeScore evRemB evCreB = 0 := rfl
    have he : extScore evRemB evCreB = 2/10 := rfl
    have hn : nameScore evRemB evCreB = 2/10 := rfl
    have ht : timeScore evRemB evCreB = 1/10 := rfl
    rw [score_pair, hs, he, hn, ht, min_def]
    norm_num
  · have hs : claimSizeScore evRemB evCreB = 0 := rfl
    have he : extScore evRemB evCreB = 2/10 := rfl
    have hn : nameScore evRemB evCreB = 2/10 := rfl
    have ht : claimTimeScore evRemB evCreB = 0 := rfl
    rw [score_pair_claim, hs, he, hn, ht, min_def]
    norm_num

/-- Claim C2, general form of the divergence: whenever both events carry a
modified timestamp, the code's timestamp test succeeds regardless of the
gap, so the 0.1 bonus is unconditional. -/
theorem timeScore_vacuous (r c : FileEvent) (rm cm : RMetadata)
    (rmt cmt : Nat) (hr : r.metadata = some rm) (hc : c.metadata = some cm)
    (hrm : rm.modified = some rmt) (hcm : cm.modified = some cmt) :
    timeScore r c = 1/10 := by
  have hcond : durSecsDefault rmt cmt < 2 ∨ durSecsDefault cmt rmt < 2 := by
    unfold durSecsDefault
    rcases Nat.le_total rmt cmt with hle | hle
    · left
      have hz : rmt - cmt = 0 := Nat.sub_eq_zero_of_le hle
      rw [hz]
      simp [NANOS_PER_SEC]
    · right
      have hz : cmt - rmt = 0 := Nat.sub_eq_zero_of_le hle
      rw [hz]
      simp [NANOS_PER_SEC]
  simp only [timeScore, hr, hc, hrm, hcm]
  rw [if_pos hcond]

/-- Witness for the vacuous-timestamp lemma at concrete events. -/
theorem timeScore_vacuous_witness : timeScore evRemB evCreB = 1/10 :=
  timeScore_vacuous evRemB evCreB ⟨some 0⟩ ⟨some 100000000000⟩ 0 100000000000
    rfl rfl rfl rfl

/-- Claim C4: after `add_remove` or `pair_create`, every buffered event is
younger than `max_age` at that operation's observation instant, and a
returned candidate's remove side is likewise younger than `max_age`. -/
theorem CLAIM_C4 (h : MoveHeuristics) (event create : FileEvent) (now : Nat) :
    (∀ e ∈ (add_remove h event now).remove_events, now - e.time < h.max_age) ∧
    (∀ e ∈ (pair_create h create now).2.remove_events, now - e.time < h.max_age) ∧
    (∀ b, (pair_create h create now).1 = some b → now - b.fromEv.time < h.max_age) := by
  have hrun := goodAcc_run create (prune_old h now).remove_events
  refine ⟨?_, ?_, ?_⟩
  · intro e he
    exact (mem_prune_old he).2
  · intro e he
    rcases hb : (prune_old h now).remove_events.foldl (stepBest create) none with _ | b
    · rw [pair_create_def, hb] at he
      exact (mem_prune_old he).2
    · rw [pair_create_def, hb] at he
      simp only at he
      exact (mem_prune_old (mem_removeFirstByPath he)).2
  · intro b hbeq
    rcases hb : (prune_old h now).remove_events.foldl (stepBest create) none with _ | b2
    · rw [pair_create_def, hb] at hbeq; simp at hbeq
    · rw [pair_create_def, hb] at hbeq
      simp only [Option.some.injEq] at hbeq
      subst hbeq
      rw [hb] at hrun
      exact (mem_prune_old hrun.2.1).2

/-- Witness for Claim C4 at a concrete state: after `add_remove` at instant
500500 on a buffer holding a stale remove, every remaining event is younger
than `max_age`. -/
theorem CLAIM_C4_witness :
    ∀ e ∈ (add_remove bufOld evRemNew 500500).remove_events, 500500 - e.time < 1000 := by
  intro e he
  exact (CLAIM_C4 bufOld evRemNew evRemNew 500500).1 e he

/-- Claim C10: the 0.2 extension bonus is granted exactly when the two
paths' extensions agree as optional values, in particular when both paths
have no extension at all. -/
theorem CLAIM_C10 (r c : FileEvent) (hext : extension r.path = extension c.path) :
    score_pair r c =
      min (sizeScore r c + 2/10 + nameScore r c + timeScore r c) 1 := by
  unfold score_pair extScore
  rw [if_pos hext]

/-- Witness for Claim C10: two extensionless file names both get the bonus. -/
theorem CLAIM_C10_witness :
    extension "Makefile" = none ∧ extension "README" = none ∧
    score_pair evRemMk evCreRd =
      min (sizeScore evRemMk evCreRd + 2/10 + nameScore evRemMk evCreRd +
        timeScore evRemMk evCreRd) 1 :=
  ⟨by decide, by decide, CLAIM_C10 evRemMk evCreRd (by decide)⟩

/-! ## Round-trip lemmas for the binary codec -/

theorem leDecode_leBytes :
    ∀ (w x : Nat), x < 256 ^ w → ∀ (rest : List Nat),
      leDecode w (leBytes w x ++ rest) = some (x, rest) := by
  intro w
  induction w with
  | zero =>
    intro x hx rest
    have hx0 : x = 0 := by omega
    subst hx0
    rfl
  | succ w ih =>
    intro x hx rest
    have hdiv : x / 256 < 256 ^ w := by
      rw [Nat.div_lt_iff_lt_mul (by norm_num : (0:Nat) < 256)]
      calc x < 256 ^ (w + 1) := hx
        _ = 256 ^ w * 256 := by rw [pow_succ]
    simp only [leBytes, List.cons_append, leDecode, List.append_eq,
      ih (x / 256) hdiv rest]
    rw [Nat.mod_add_div]

theorem decVarintU64_encVarint (x : Nat) (hx : x < 2 ^ 64) (rest : List Nat) :
    decVarintU64 (encVarint x ++ rest) = some (x, rest) := by
  unfold encVarint
  by_cases h1 : x < 251
  · rw [if_pos h1]
    simp only [List.cons_append, List.nil_append, decVarintU64]
    rw [if_pos h1]
  · rw [if_neg h1]
    by_cases h2 : x < 2 ^ 16
    · rw [if_pos h2]
      simp only [List.cons_append, decVarintU64]
      norm_num
      exact leDecode_leBytes 2 x (by norm_num at h2 ⊢; exact h2) rest
    · rw [if_neg h2]
      by_cases h3 : x < 2 ^ 32
      · rw [if_pos h3]
        simp only [List.cons_append, decVarintU64]
        norm_num
        exact leDecode_leBytes 4 x (by norm_num at h3 ⊢; exact h3) rest
      · rw [if_neg h3]
        simp only [List.cons_append, decVarintU64]
        norm_num
        exact leDecode_leBytes 8 x (by norm_num at hx ⊢; exact hx) rest

theorem decVarintU32_encVarint (x : Nat) (hx : x < 2 ^ 32) (rest : List Nat) :
    decVarintU32 (encVarint x ++ rest) = some (x, rest) := by
  unfold encVarint
  by_cases h1 : x < 251
  · rw [if_pos h1]
    simp only [List.cons_append, List.nil_append, decVarintU32]
    rw [if_pos h1]
  · rw [if_neg h1]
    by_cases h2 : x < 2 ^ 16
    · rw [if_pos h2]
      simp only [List.cons_append, decVarintU32]
      norm_num
      exact leDecode_leBytes 2 x (by norm_num at h2 ⊢; exact h2) rest
    · rw [if_neg h2, if_pos hx]
      simp only [List.cons_append, decVarintU32]
      norm_num
      exact leDecode_leBytes 4 x (by norm_num at hx ⊢; exact hx) rest

theorem decStr_encStr (s : List Nat) (hlen : s.length < 2 ^ 64)
    (hval : utf8Valid s = true) (rest : List Nat) :
    decStr (encStr s ++ rest) = some (s, rest) := by
  unfold encStr decStr
  rw [List.append_assoc]
  simp only [decVarintU64_encVarint s.length hlen (s ++ rest)]
  rw [if_pos (by simp : s.length ≤ (s ++ rest).length)]
  rw [List.take_left, List.drop_left, if_pos hval]

theorem decDuration_encDuration (d : RDuration) (hs : d.secs < 2 ^ 64)
    (hn : d.nanos < NANOS_PER_SEC) (rest : List Nat) :
    decDuration (encDuration d ++ rest) = some (d, rest) := by
  have hn32 : d.nanos < 2 ^ 32 := lt_trans hn (by norm_num [NANOS_PER_SEC])
  unfold encDuration decDuration
  rw [List.append_assoc]
  simp only [decVarintU64_encVarint d.secs hs (encVarint d.nanos ++ rest),
    decVarintU32_encVarint d.nanos hn32 rest]
  rw [Nat.div_eq_of_lt hn, Nat.mod_eq_of_lt hn, Nat.add_zero]

theorem decOpt_encOpt_dur (o : Option RDuration)
    (ho : match o with
      | none => True
      | some d => WfDuration d) (rest : List Nat) :
    decOpt decDuration (encOpt encDuration o ++ rest) = some (o, rest) := by
  match o with
  | none => rfl
  | some d =>
    show decOpt decDuration (1 :: (encDuration d ++ rest)) = some (some d, rest)
    simp only [decOpt, decDuration_encDuration d ho.1 ho.2 rest]

theorem decOpt_encOpt_str (o : Option (List Nat))
    (ho : match o with
      | none => True
      | some e => utf8Valid e = true ∧ e.length < 2 ^ 64) (rest : List Nat) :
    decOpt decStr (encOpt encStr o ++ rest) = some (o, rest) := by
  match o with
  | none => rfl
  | some e =>
    show decOpt decStr (1 :: (encStr e ++ rest)) = some (some e, rest)
    simp only [decOpt, decStr_encStr e ho.2 ho.1 rest]

/-- Claim C6: for every record whose binary encoding succeeds (its path is
valid UTF-8; the remaining bounds are invariants of the Rust field types),
deserialize after serialize reproduces the record, with identical path,
size, modified, created and extension fields. -/
theorem CLAIM_C6 (m : FileMeta) (hwf : WfMeta m) :
    deserialize (serialize m) = m := by
  obtain ⟨hpath, hplen, hsize, hmod, hcre, hext⟩ := hwf
  have henc : encode_to_vec m =
      some (encStr m.path ++ (encVarint m.size ++ (encOpt encDuration m.modified ++
        (encOpt encDuration m.created ++ encOpt encStr m.extension)))) := by
    unfold encode_to_vec
    rw [if_pos hpath]
    simp [List.append_assoc]
  have e1 := decStr_encStr m.path hplen hpath
    (encVarint m.size ++ (encOpt encDuration m.modified ++
      (encOpt encDuration m.created ++ encOpt encStr m.extension)))
  have e2 := decVarintU64_encVarint m.size hsize
    (encOpt encDuration m.modified ++
      (encOpt encDuration m.created ++ encOpt encStr m.extension))
  have e3 := decOpt_encOpt_dur m.modified hmod
    (encOpt encDuration m.created ++ encOpt encStr m.extension)
  have e4 := decOpt_encOpt_dur m.created hcre (encOpt encStr m.extension)
  have e5 : decOpt decStr (encOpt encStr m.extension) = some (m.extension, []) := by
    have h := decOpt_encOpt_str m.extension hext []
    simpa using h
  unfold deserialize serialize
  rw [henc]
  simp only [Option.getD_some, parseFileMeta, e1, e2, e3, e4, e5]

/-- Witness for Claim C6: a concrete record round-trips. -/
theorem CLAIM_C6_witness :
    WfMeta (⟨[97, 46, 116, 120, 116], 100, some ⟨5, 500⟩, none,
      some [116, 120, 116]⟩ : FileMeta) ∧
    deserialize (serialize (⟨[97, 46, 116, 120, 116], 100, some ⟨5, 500⟩, none,
      some [116, 120, 116]⟩ : FileMeta)) =
      (⟨[97, 46, 116, 120, 116], 100, some ⟨5, 500⟩, none,
        some [116, 120, 116]⟩ : FileMeta) :=
  ⟨by decide, CLAIM_C6 _ (by decide)⟩

/-- Claim C7: serialize and deserialize are total and never propagate an
error: a failed encode yields the empty byte vector, a failed decode yields
the zero-valued record (empty path, size 0, no modified or created
timestamp, no extension). -/
theorem CLAIM_C7 :
    (∀ m, encode_to_vec m = none → serialize m = []) ∧
    (∀ bs, parseFileMeta bs = none → deserialize bs = zeroFileMeta) ∧
    zeroFileMeta.path = [] ∧ zeroFileMeta.size = 0 ∧ zeroFileMeta.modified = none ∧
    zeroFileMeta.created = none ∧ zeroFileMeta.extension = none := by
  refine ⟨?_, ?_, rfl, rfl, rfl, rfl, rfl⟩
  · intro m hm
    unfold serialize
    rw [hm]
    rfl
  · intro bs hbs
    unfold deserialize
    rw [hbs]
    rfl

/-- Witness for Claim C7: a record with a non-UTF-8 path (byte 0xFF) fails
to encode and serializes to the empty vector, and a truncated byte stream
fails to decode and deserializes to the zero record. -/
theorem CLAIM_C7_witness :
    encode_to_vec (⟨[255], 0, none, none, none⟩ : FileMeta) = none ∧
    serialize (⟨[255], 0, none, none, none⟩ : FileMeta) = [] ∧
    parseFileMeta [253] = none ∧
    deserialize [253] = zeroFileMeta :=
  ⟨by decide, CLAIM_C7.1 (⟨[255], 0, none, none, none⟩ : FileMeta) (by decide),
    by decide, CLAIM_C7.2.1 [253] (by decide)⟩

/-! ## Map lemmas -/

theorem lookupFM_isSome_iff {l : FMap} {k : List Nat} :
    (lookupFM l k).isSome ↔ ∃ m, (k, m) ∈ l := by
  unfold lookupFM
  rcases hf : List.find? (fun p => p.1 == k) l with _ | p
  · rw [hf]
    simp only [Option.map_none', Option.isSome_none, Bool.false_eq_true, false_iff]
    rintro ⟨m, hm⟩
    have h2 := List.find?_eq_none.mp hf (k, m) hm
    simp at h2
  · rw [hf]
    simp only [Option.map_some', Option.isSome_some, true_iff]
    have hpred := List.find?_some hf
    have hmem := List.mem_of_find?_eq_some hf
    simp only [beq_iff_eq] at hpred
    refine ⟨p.2, ?_⟩
    have hkp : (k, p.2) = p := by rw [← hpred]
    rw [hkp]
    exact hmem

theorem mem_of_lookupFM_eq_some {l : FMap} {k : List Nat} {m : FileMeta}
    (h : lookupFM l k = some m) : (k, m) ∈ l := by
  unfold lookupFM at h
  rcases hf : List.find? (fun p => p.1 == k) l with _ | p
  · rw [hf] at h; cases h
  · rw [hf] at h
    simp only [Option.map_some', Option.some.injEq] at h
    have hmem := List.mem_of_find?_eq_some hf
    have hpred := List.find?_some hf
    simp only [beq_iff_eq] at hpred
    have : p = (k, m) := by
      cases p
      simp only at hpred h
      simp [hpred, h]
    rw [this] at hmem
    exact hmem

theorem lookupFM_eq_some_of_mem {l : FMap} {k : List Nat} {m : FileMeta}
    (hnd : (l.map Prod.fst).Nodup) (hmem : (k, m) ∈ l) :
    lookupFM l k = some m := by
  induction l with
  | nil => cases hmem
  | cons p rest ih =>
    rcases List.mem_cons.mp hmem with h1 | h1
    · subst h1
      unfold lookupFM
      rw [List.find?_cons_of_pos _ (by simp)]
      rfl
    · have hnd2 : (rest.map Prod.fst).Nodup := (List.nodup_cons.mp hnd).2
      have hne : ¬ (p.1 == k) = true := by
        simp only [beq_iff_eq]
        intro heq
        have hk : k ∈ rest.map Prod.fst :=
          List.mem_map.mpr ⟨(k, m), h1, rfl⟩
        rw [← heq] at hk
        exact (List.nodup_cons.mp hnd).1 hk
      unfold lookupFM
      rw [List.find?_cons_of_neg _ (by simpa using hne)]
      exact ih hnd2 h1

theorem lookupFM_removeFM_self (l : FMap) (k : List Nat) :
    lookupFM (removeFM l k) k = none := by
  unfold lookupFM removeFM
  rcases hf : List.find? (fun p => p.1 == k) (List.filter (fun p => !(p.1 == k)) l)
    with _ | p
  · rw [hf]
    rfl
  · have hmem := List.mem_of_find?_eq_some hf
    have hpred := List.find?_some hf
    have hflt := List.of_mem_filter hmem
    rw [hpred] at hflt
    cases hflt

theorem lookupFM_insertFM_self (l : FMap) (k : List Nat) (v : FileMeta) :
    lookupFM (insertFM l k v) k = some v := by
  unfold lookupFM insertFM
  rw [List.find?_cons_of_pos _ (by simp)]
  rfl

/-- The upsert-staging predicate of `diff_and_update` holds exactly when the
stored record under the key differs from (or does not exist for) the new
record. -/
theorem upsertPred_iff (files : FMap) (k : List Nat) (m : FileMeta) :
    ((match lookupFM files k with
      | some old => !(old == m)
      | none => true) = true) ↔ ¬ lookupFM files k = some m := by
  cases hl : lookupFM files k with
  | none => simp
  | some old => simp [beq_iff_eq]

theorem filter_eq_singleton {α : Type} (pred : α → Bool) :
    ∀ (l : List α) (x : α), x ∈ l → (∀ y ∈ l, pred y = true ↔ y = x) →
      l.Nodup → l.filter pred = [x] := by
  intro l
  induction l with
  | nil => intro x hx; cases hx
  | cons a rest ih =>
    intro x hx hall hnd
    by_cases hax : a = x
    · subst hax
      rw [List.filter_cons_of_pos ((hall a (List.mem_cons_self a rest)).mpr rfl)]
      have hrest : rest.filter pred = [] := by
        rw [List.filter_eq_nil_iff]
        intro y hy hpy
        have hya : y = a := (hall y (List.mem_cons_of_mem a hy)).mp hpy
        rw [hya] at hy
        exact (List.nodup_cons.mp hnd).1 hy
      rw [hrest]
    · have hpa : ¬ pred a = true := by
        intro hpa
        exact hax ((hall a (List.mem_cons_self a rest)).mp hpa)
      rw [List.filter_cons_of_neg (by simpa using hpa)]
      have hx2 : x ∈ rest := by
        rcases List.mem_cons.mp hx with h1 | h1
        · exact absurd h1.symm hax
        · exact h1
      exact ih x hx2 (fun y hy => hall y (List.mem_cons_of_mem a hy))
        (List.nodup_cons.mp hnd).2

/-! ## Claim theorems for the flat FileCache -/

/-- Claim C3: diff_and_update stages for removal exactly the current keys
absent from new_files, stages for upsert exactly the new entries whose key
is new or whose record changed, writes nothing for unchanged records, and
in the one-changed-record scenario stages exactly one upsert and no
removal. -/
theorem CLAIM_C3 (files new_files : FMap)
    (hnn : (new_files.map Prod.fst).Nodup) :
    (∀ k, k ∈ (diff_and_update ⟨files⟩ new_files).2.1 ↔
      ((lookupFM files k).isSome ∧ lookupFM new_files k = none)) ∧
    (∀ k m, (k, m) ∈ (diff_and_update ⟨files⟩ new_files).2.2 ↔
      ((k, m) ∈ new_files ∧ ¬ lookupFM files k = some m)) ∧
    (∀ k m, lookupFM files k = some m → lookupFM new_files k = some m →
      k ∉ (diff_and_update ⟨files⟩ new_files).2.1 ∧
      ∀ m2, (k, m2) ∉ (diff_and_update ⟨files⟩ new_files).2.2) ∧
    (∀ k mOld mNew, lookupFM files k = some mOld → lookupFM new_files k = some mNew →
      ¬ mOld = mNew → (∀ j, ¬ j = k → lookupFM files j = lookupFM new_files j) →
      (diff_and_update ⟨files⟩ new_files).2.1 = [] ∧
      (diff_and_update ⟨files⟩ new_files).2.2 = [(k, mNew)]) := by
  have hrm : ∀ k, k ∈ (diff_and_update ⟨files⟩ new_files).2.1 ↔
      ((lookupFM files k).isSome ∧ lookupFM new_files k = none) := by
    intro k
    show k ∈ stagedRemovals files new_files ↔ _
    unfold stagedRemovals
    rw [List.mem_filter]
    constructor
    · rintro ⟨hmap, hpred⟩
      refine ⟨?_, ?_⟩
      · rw [lookupFM_isSome_iff]
        rcases List.mem_map.mp hmap with ⟨q, hq, rfl⟩
        exact ⟨q.2, hq⟩
      · exact Option.isNone_iff_eq_none.mp (by simpa using hpred)
    · rintro ⟨hs, hn⟩
      refine ⟨?_, ?_⟩
      · rcases lookupFM_isSome_iff.mp hs with ⟨m, hm⟩
        exact List.mem_map.mpr ⟨(k, m), hm, rfl⟩
      · simp [Option.isNone_iff_eq_none, hn]
  have hup : ∀ k m, (k, m) ∈ (diff_and_update ⟨files⟩ new_files).2.2 ↔
      ((k, m) ∈ new_files ∧ ¬ lookupFM files k = some m) := by
    intro k m
    show (k, m) ∈ stagedUpserts files new_files ↔ _
    unfold stagedUpserts
    rw [List.mem_filter]
    exact and_congr_right (fun _ => upsertPred_iff files k m)
  refine ⟨hrm, hup, ?_, ?_⟩
  · intro k m hf hn
    constructor
    · intro hk
      rw [(hrm k).1 hk |>.2] at hn
      cases hn
    · intro m2 hk
      obtain ⟨hmem, hne⟩ := (hup k m2).mp hk
      have h2 : lookupFM new_files k = some m2 := lookupFM_eq_some_of_mem hnn hmem
      rw [hn] at h2
      obtain rfl := Option.some.injEq _ _ ▸ h2.symm
      exact hne hf
  · intro k mOld mNew hOld hNew hne hall
    constructor
    · rw [List.eq_nil_iff_forall_not_mem]
      intro j hj
      obtain ⟨hjs, hjn⟩ := (hrm j).mp hj
      by_cases hjk : j = k
      · subst hjk
        rw [hjn] at hNew
        cases hNew
      · rw [hall j hjk, hjn] at hjs
        cases hjs
    · show stagedUpserts files new_files = [(k, mNew)]
      unfold stagedUpserts
      apply filter_eq_singleton _ new_files (k, mNew)
        (mem_of_lookupFM_eq_some hNew) ?_ (List.Nodup.of_map _ hnn)
      rintro ⟨j, m⟩ hq
      have hiff := upsertPred_iff files j m
      constructor
      · intro hpred
        have hne2 : ¬ lookupFM files j = some m := hiff.mp hpred
        by_cases hjk : j = k
        · subst hjk
          have h2 : lookupFM new_files j = some m := lookupFM_eq_some_of_mem hnn hq
          rw [hNew] at h2
          obtain rfl := Option.some.injEq _ _ ▸ h2.symm
          rfl
        · have h2 : lookupFM new_files j = some m := lookupFM_eq_some_of_mem hnn hq
          rw [← hall j hjk] at h2
          exact absurd h2 hne2
      · intro heq
        obtain ⟨rfl, rfl⟩ := Prod.mk.injEq _ _ _ _ |>.mp heq
        apply hiff.mpr
        intro hc
        rw [hOld] at hc
        obtain rfl := Option.some.injEq _ _ ▸ hc.symm
        exact hne rfl

/-- Witness for Claim C3 at concrete single-entry maps where only the
record under key `[97]` changed: no removal and exactly one upsert is
staged. -/
theorem CLAIM_C3_witness :
    (diff_and_update ⟨[([97], mA)]⟩ [([97], mB)]).2.1 = [] ∧
    (diff_and_update ⟨[([97], mA)]⟩ [([97], mB)]).2.2 = [([97], mB)] :=
  (CLAIM_C3 [([97], mA)] [([97], mB)] (by decide)).2.2.2 [97] mA mB
    (by decide) (by decide) (by decide)
    (fun j hj => by
      unfold lookupFM
      rw [List.find?_cons_of_neg _ (by simpa using fun h => hj h.symm),
        List.find?_cons_of_neg _ (by simpa using fun h => hj h.symm)])

/-- Claim C8: `get` is exactly the map lookup (`None` exactly when the path
is not cached), the value it returns is the record stored at lookup time,
and that value is a copy: mutating the cache afterwards (re-inserting or
removing the path) changes what the cache stores but not the record
previously returned, which still equals the entry the cache held when it
was read. -/
theorem CLAIM_C8 (c : FileCache) (p : List Nat) :
    ((get c p).isSome ↔ ∃ m, (p, m) ∈ c.files) ∧
    (∀ m, get c p = some m → (p, m) ∈ c.files) ∧
    ((c.files.map Prod.fst).Nodup → ∀ m, (p, m) ∈ c.files → get c p = some m) ∧
    (∀ m meta2, get c p = some m →
      get (update_file c p (some meta2)).1 p = some meta2 ∧
      get (remove_file c p).1 p = none ∧
      get c p = some m ∧ (p, m) ∈ c.files) := by
  refine ⟨lookupFM_isSome_iff, ?_, ?_, ?_⟩
  · intro m h
    exact mem_of_lookupFM_eq_some h
  · intro hnd m hm
    exact lookupFM_eq_some_of_mem hnd hm
  · intro m meta2 hm
    refine ⟨?_, ?_, hm, mem_of_lookupFM_eq_some hm⟩
    · show lookupFM (insertFM c.files p meta2) p = some meta2
      exact lookupFM_insertFM_self _ _ _
    · show lookupFM (removeFM c.files p) p = none
      exact lookupFM_removeFM_self _ _

/-- Witness for Claim C8: a concrete cached record survives, as a value,
the removal of its path from the cache. -/
theorem CLAIM_C8_witness :
    get (update_file (⟨[([97], mA)]⟩ : FileCache) [97] (some mB)).1 [97] = some mB ∧
    get (remove_file (⟨[([97], mA)]⟩ : FileCache) [97]).1 [97] = none ∧
    get (⟨[([97], mA)]⟩ : FileCache) [97] = some mA :=
  have h := (CLAIM_C8 (⟨[([97], mA)]⟩ : FileCache) [97]).2.2.2 mA mB (by decide)
  ⟨h.1, h.2.1, h.2.2.1⟩

/-- Claim C9: when the OS stat fails (`FileMeta::from_path` returns none),
`update_file` changes nothing: the in-memory map is untouched and no
database operation is emitted. -/
theorem CLAIM_C9 (c : FileCache) (path : List Nat) :
    update_file c path none = (c, []) := rfl

/-! ## Lemmas about eviction and the scan invariant -/

theorem idPresent_true_iff {entries : List (Nat × Entry)} {k : Nat} :
    idPresent entries k = true ↔ ∃ e, (k, e) ∈ entries := by
  unfold idPresent
  rw [List.any_eq_true]
  constructor
  · rintro ⟨pr, hmem, hpr⟩
    simp only [beq_iff_eq] at hpr
    refine ⟨pr.2, ?_⟩
    have : (k, pr.2) = pr := by rw [← hpr]
    rw [this]
    exact hmem
  · rintro ⟨e, he⟩
    exact ⟨(k, e), he, by simp⟩

theorem mem_foldl_entriesRemove :
    ∀ (keys : List Nat) (l : List (Nat × Entry)) (pr : Nat × Entry),
      pr ∈ keys.foldl entriesRemove l → pr ∈ l := by
  intro keys
  induction keys with
  | nil => intro l pr h; exact h
  | cons k0 rest ih =>
    intro l pr h
    have h2 := ih (entriesRemove l k0) pr h
    exact List.mem_of_mem_filter h2

theorem idPresent_foldl_of_absent {keys : List Nat} {l : List (Nat × Entry)} {k : Nat}
    (h : idPresent l k = false) : idPresent (keys.foldl entriesRemove l) k = false := by
  cases hval : idPresent (keys.foldl entriesRemove l) k with
  | false => rfl
  | true =>
    obtain ⟨e, he⟩ := idPresent_true_iff.mp hval
    have h2 : (k, e) ∈ l := mem_foldl_entriesRemove keys l (k, e) he
    have h3 : idPresent l k = true := idPresent_true_iff.mpr ⟨e, h2⟩
    rw [h] at h3
    cases h3

theorem idPresent_entriesRemove_self (l : List (Nat × Entry)) (k : Nat) :
    idPresent (entriesRemove l k) k = false := by
  cases hval : idPresent (entriesRemove l k) k with
  | false => rfl
  | true =>
    obtain ⟨e, he⟩ := idPresent_true_iff.mp hval
    have h2 := List.of_mem_filter he
    simp at h2

theorem idPresent_foldl_of_mem :
    ∀ (keys : List Nat) (l : List (Nat × Entry)) (k : Nat), k ∈ keys →
      idPresent (keys.foldl entriesRemove l) k = false := by
  intro keys
  induction keys with
  | nil => intro l k h; cases h
  | cons k0 rest ih =>
    intro l k h
    rw [List.foldl_cons]
    rcases List.mem_cons.mp h with h1 | h1
    · subst h1
      exact idPresent_foldl_of_absent (idPresent_entriesRemove_self l k)
    · exact ih (entriesRemove l k0) k h1

theorem upsertEntry_none_def (st : ScanSt) (name : String) (parent : Nat)
    (isDir : Bool) (meta : Option FileMeta)
    (hf : findByParentName st.entries parent name = none) :
    upsertEntry st name parent isDir meta =
      (st.nextId, { st with entries := (st.nextId, (⟨name, some parent, isDir, meta⟩ : Entry)) :: st.entries, nextId := st.nextId + 1 }) := by
  unfold upsertEntry
  rw [hf]

theorem upsertEntry_some_def (st : ScanSt) (name : String) (parent : Nat)
    (isDir : Bool) (meta : Option FileMeta) (pr : Nat × Entry)
    (hf : findByParentName st.entries parent name = some pr) :
    upsertEntry st name parent isDir meta =
      (pr.1, { st with entries := st.entries.map (fun q => if q.1 == pr.1 then (q.1, (⟨name, some parent, isDir, meta⟩ : Entry)) else q) }) := by
  unfold upsertEntry
  rw [hf]

theorem upsertEntry_spec (st : ScanSt) (name : String) (parent : Nat)
    (isDir : Bool) (meta : Option FileMeta) (hinv : ScanInv st) :
    ScanInv (upsertEntry st name parent isDir meta).2 ∧
    (upsertEntry st name parent isDir meta).1 <
      (upsertEntry st name parent isDir meta).2.nextId ∧
    st.nextId ≤ (upsertEntry st name parent isDir meta).2.nextId ∧
    (upsertEntry st name parent isDir meta).2.flushed = st.flushed ∧
    (upsertEntry st name parent isDir meta).2.obs = st.obs ∧
    (upsertEntry st name parent isDir meta).2.dbCommits = st.dbCommits := by
  obtain ⟨hent, hflb, hgone, hobs, hlen⟩ := hinv
  rcases hf : findByParentName st.entries parent name with _ | pr
  · rw [upsertEntry_none_def st name parent isDir meta hf]
    have hb2 : ∀ q ∈ (st.nextId, (⟨name, some parent, isDir, meta⟩ : Entry)) :: st.entries,
        q.1 < st.nextId + 1 := by
      intro q hq
      rcases List.mem_cons.mp hq with h1 | h1
      · rw [h1]; exact Nat.lt_succ_self _
      · exact Nat.lt_succ_of_lt (hent q h1)
    refine ⟨⟨hb2, ?_, ?_, hobs, hlen⟩, Nat.lt_succ_self _, Nat.le_succ _, rfl, rfl, rfl⟩
    · intro k hk
      exact Nat.lt_succ_of_lt (hflb k hk)
    · intro k hk
      have hne : ¬ (st.nextId == k) = true := by
        simp only [beq_iff_eq]
        intro heq
        have := hflb k hk
        omega
      unfold idPresent
      rw [List.any_cons]
      rw [Bool.or_eq_false_iff]
      exact ⟨by simpa using hne, hgone k hk⟩
  · rw [upsertEntry_some_def st name parent isDir meta pr hf]
    have hfst : ∀ q : Nat × Entry,
        ((fun q => if q.1 == pr.1 then (q.1, (⟨name, some parent, isDir, meta⟩ : Entry))
          else q) q).1 = q.1 := by
      intro q
      by_cases hq : (q.1 == pr.1) = true
      · simp [hq]
      · simp [hq]
    have hany : ∀ k, idPresent (st.entries.map
        (fun q => if q.1 == pr.1 then (q.1, (⟨name, some parent, isDir, meta⟩ : Entry))
          else q)) k = idPresent st.entries k := by
      intro k
      unfold idPresent
      generalize st.entries = l
      induction l with
      | nil => rfl
      | cons q rest ih =>
        rw [List.map_cons, List.any_cons, List.any_cons, ih, hfst q]
    have hpr := List.mem_of_find?_eq_some hf
    refine ⟨⟨?_, hflb, ?_, hobs, hlen⟩, hent pr hpr, le_refl _, rfl, rfl, rfl⟩
    · intro q hq
      rcases List.mem_map.mp hq with ⟨q0, hq0, rfl⟩
      rw [hfst q0]
      exact hent q0 hq0
    · intro k hk
      rw [hany k]
      exact hgone k hk

theorem flushBatch_false_def (st : ScanSt) (batch : List (List Nat × FileMeta))
    (keys : List Nat) (n : Nat) :
    flushBatch st batch keys false n =
      { entries := keys.foldl entriesRemove st.entries, nextId := st.nextId,
        db := st.db ++ batch, dbCommits := st.dbCommits + 1,
        flushed := st.flushed ++ keys, obs := st.obs } := rfl

theorem flushBatch_true_def (st : ScanSt) (batch : List (List Nat × FileMeta))
    (keys : List Nat) (n : Nat) :
    flushBatch st batch keys true n =
      { entries := keys.foldl entriesRemove st.entries, nextId := st.nextId,
        db := st.db ++ batch, dbCommits := st.dbCommits + 1,
        flushed := st.flushed ++ keys,
        obs := st.obs ++ [⟨[], keys.foldl entriesRemove st.entries,
          st.flushed ++ keys, n⟩] } := rfl

theorem flushBatch_spec (st : ScanSt) (batch : List (List Nat × FileMeta))
    (keys : List Nat) (cb : Bool) (n : Nat) (hinv : ScanInv st)
    (hkeys : ∀ k ∈ keys, k < st.nextId) :
    ScanInv (flushBatch st batch keys cb n) ∧
    (flushBatch st batch keys cb n).nextId = st.nextId := by
  obtain ⟨hent, hflb, hgone, hobs, hlen⟩ := hinv
  have hent2 : ∀ pr ∈ keys.foldl entriesRemove st.entries, pr.1 < st.nextId :=
    fun pr hpr => hent pr (mem_foldl_entriesRemove keys st.entries pr hpr)
  have hflb2 : ∀ k ∈ st.flushed ++ keys, k < st.nextId := by
    intro k hk
    rcases List.mem_append.mp hk with h1 | h1
    · exact hflb k h1
    · exact hkeys k h1
  have hgone2 : ∀ k ∈ st.flushed ++ keys,
      idPresent (keys.foldl entriesRemove st.entries) k = false := by
    intro k hk
    rcases List.mem_append.mp hk with h1 | h1
    · exact idPresent_foldl_of_absent (hgone k h1)
    · exact idPresent_foldl_of_mem keys st.entries k h1
  cases cb with
  | false =>
    rw [flushBatch_false_def]
    exact ⟨⟨hent2, hflb2, hgone2, hobs, Nat.le_succ_of_le hlen⟩, rfl⟩
  | true =>
    rw [flushBatch_true_def]
    refine ⟨⟨hent2, hflb2, hgone2, ?_, ?_⟩, rfl⟩
    · intro o ho
      rcases List.mem_append.mp ho with h1 | h1
      · exact hobs o h1
      · rw [List.mem_singleton.mp h1]
        exact ⟨rfl, hgone2⟩
    · simp only [List.length_append, List.length_singleton]
      omega

theorem processFile_file_def (cfg : ScanCfg) (cb : Bool) (parentKey : Nat)
    (acc : LoopAcc) (name : String) (meta : FileMeta) :
    processFile cfg cb parentKey acc (.fileN name (some meta)) =
      (if cfg.ign name then acc
      else if cfg.batchSize ≤ (acc.batch ++ [(meta.path, meta)]).length then
        ⟨flushBatch (update_or_insert_file acc.st name parentKey meta).2 (acc.batch ++ [(meta.path, meta)]) (acc.batchKeys ++ [(update_or_insert_file acc.st name parentKey meta).1]) cb (acc.batchCount + 1), [], [], acc.batchCount + 1⟩
      else
        ⟨(update_or_insert_file acc.st name parentKey meta).2, acc.batch ++ [(meta.path, meta)], acc.batchKeys ++ [(update_or_insert_file acc.st name parentKey meta).1], acc.batchCount⟩) :=
  rfl

theorem processFile_inv (cfg : ScanCfg) (cb : Bool) (parentKey : Nat)
    (acc : LoopAcc) (node : FsNode) (h : LoopInv acc) :
    LoopInv (processFile cfg cb parentKey acc node) := by
  obtain ⟨hst, hkeys⟩ := h
  cases node with
  | dirN name sub => exact ⟨hst, hkeys⟩
  | fileN name metaOpt =>
    cases metaOpt with
    | none =>
      show LoopInv (if cfg.ign name then acc else acc)
      by_cases hig : cfg.ign name = true
      · rw [if_pos hig]; exact ⟨hst, hkeys⟩
      · rw [if_neg hig]; exact ⟨hst, hkeys⟩
    | some meta =>
      rw [processFile_file_def]
      by_cases hig : cfg.ign name = true
      · rw [if_pos hig]
        exact ⟨hst, hkeys⟩
      · rw [if_neg hig]
        have hu := upsertEntry_spec acc.st name parentKey false (some meta) hst
        obtain ⟨hinv2, hklt, hmono, -, -, -⟩ := hu
        have hkeys2 : ∀ k ∈ acc.batchKeys ++
            [(update_or_insert_file acc.st name parentKey meta).1],
            k < (update_or_insert_file acc.st name parentKey meta).2.nextId := by
          intro k hk
          rcases List.mem_append.mp hk with h1 | h1
          · exact lt_of_lt_of_le (hkeys k h1) hmono
          · rw [List.mem_singleton.mp h1]
            exact hklt
        by_cases hsz : cfg.batchSize ≤ (acc.batch ++ [(meta.path, meta)]).length
        · rw [if_pos hsz]
          refine ⟨?_, by intro k hk; cases hk⟩
          exact (flushBatch_spec _ _ _ cb (acc.batchCount + 1) hinv2 hkeys2).1
        · rw [if_neg hsz]
          exact ⟨hinv2, hkeys2⟩

theorem foldl_processFile_inv (cfg : ScanCfg) (cb : Bool) (parentKey : Nat) :
    ∀ (nodes : List FsNode) (acc : LoopAcc), LoopInv acc →
      LoopInv (nodes.foldl (processFile cfg cb parentKey) acc) := by
  intro nodes
  induction nodes with
  | nil => intro acc h; exact h
  | cons node rest ih =>
    intro acc h
    exact ih _ (processFile_inv cfg cb parentKey acc node h)

/-- Simultaneous invariant preservation for `scanDir` and `scanSubdirs`,
by induction on the tree size. -/
theorem scan_inv_all :
    ∀ n : Nat,
      (∀ (cfg : ScanCfg) (st : ScanSt) (dname : String) (d : FsDir)
        (parent : Option Nat) (cb : Bool), sizeOf d ≤ n → ScanInv st →
        ScanInv (scanDir cfg st dname d parent cb)) ∧
      (∀ (cfg : ScanCfg) (st : ScanSt) (nodes : List FsNode) (parentKey : Nat),
        sizeOf nodes ≤ n → ScanInv st →
        ScanInv (scanSubdirs cfg st nodes parentKey)) := by
  intro n
  induction n with
  | zero =>
    constructor
    · intro cfg st dname d parent cb hsz
      cases d with
      | mkDir nodes => simp at hsz
    · intro cfg st nodes parentKey hsz
      cases nodes with
      | nil => intro h; rw [scanSubdirs]; exact h
      | cons a rest => simp at hsz
  | succ n ih =>
    constructor
    · intro cfg st dname d parent cb hsz hinv
      cases d with
      | mkDir nodes =>
        have hszn : sizeOf nodes ≤ n := by simp at hsz; omega
        by_cases hig : cfg.ign dname = true
        · simpa [scanDir, hig] using hinv
        · simp only [scanDir]
          rw [if_neg hig]
          have hacc := foldl_processFile_inv cfg cb (parent.getD cfg.root) nodes
            ⟨st, [], [], 0⟩ ⟨hinv, by intro k hk; cases hk⟩
          obtain ⟨haccinv, hacckeys⟩ := hacc
          set A := nodes.foldl (processFile cfg cb (parent.getD cfg.root))
            ⟨st, [], [], 0⟩ with hA
          by_cases hemp : A.batch.isEmpty = true
          · rw [if_pos hemp]
            exact ih.2 cfg _ nodes (parent.getD cfg.root) hszn haccinv
          · rw [if_neg hemp]
            have hfl := flushBatch_spec A.st A.batch A.batchKeys cb
              (A.batchCount + 1) haccinv hacckeys
            exact ih.2 cfg _ nodes (parent.getD cfg.root) hszn hfl.1
    · intro cfg st nodes parentKey hsz hinv
      cases nodes with
      | nil =>
        rw [scanSubdirs]
        exact hinv
      | cons node rest =>
        cases node with
        | fileN name metaOpt =>
          rw [scanSubdirs]
          have hszr : sizeOf rest ≤ n := by simp at hsz; omega
          exact ih.2 cfg st rest parentKey hszr hinv
        | dirN name sub =>
          rw [scanSubdirs]
          have hszr : sizeOf rest ≤ n := by simp at hsz; omega
          have hszs : sizeOf sub ≤ n := by simp at hsz; omega
          have ha := upsertEntry_spec st name parentKey true none hinv
          have hd := ih.1 cfg (add_dir st name parentKey).2 name sub
            (some (add_dir st name parentKey).1) false hszs ha.1
          exact ih.2 cfg _ rest parentKey hszr hd

/-! ## Claim theorems for the streaming scan -/

theorem scanDir_scanInv (cfg : ScanCfg) (st : ScanSt) (dname : String)
    (d : FsDir) (parent : Option Nat) (cb : Bool) (h : ScanInv st) :
    ScanInv (scanDir cfg st dname d parent cb) :=
  (scan_inv_all (sizeOf d)).1 cfg st dname d parent cb (le_refl _) h

theorem initScanSt_inv (rootName : String) : ScanInv (initScanSt rootName) := by
  refine ⟨?_, ?_, ?_, ?_, ?_⟩
  · intro pr hpr
    rw [List.mem_singleton.mp hpr]
    exact Nat.lt_succ_self 0
  · intro k hk; cases hk
  · intro k hk; cases hk
  · intro o ho; cases ho
  · exact le_refl 0

/-- Claim C5, amended: during a streaming scan every batch that reaches
`batch_size` (and the trailing partial batch) is committed in one database
transaction and its entries evicted, so at every `on_batch` observation
point the file records resident in the batch buffer plus the still-resident
flushed records number at most `batch_size` (in fact zero), flushed records
are never resident afterwards either, and the callback fires at most once
per database commit — only for batches flushed at the level the callback
was passed to, since recursive subdirectory scans receive no callback. -/
theorem CLAIM_C5 (cfg : ScanCfg) (rootName dname : String) (d : FsDir) :
    (∀ o ∈ (scanDir cfg (initScanSt rootName) dname d none true).obs,
      o.batchAtObs.length +
        (o.flushedAtObs.filter (fun k => idPresent o.entriesAtObs k)).length ≤
        cfg.batchSize) ∧
    (∀ k ∈ (scanDir cfg (initScanSt rootName) dname d none true).flushed,
      idPresent (scanDir cfg (initScanSt rootName) dname d none true).entries k = false) ∧
    (scanDir cfg (initScanSt rootName) dname d none true).obs.length ≤
      (scanDir cfg (initScanSt rootName) dname d none true).dbCommits := by
  obtain ⟨-, -, hgone, hobs, hlen⟩ :=
    scanDir_scanInv cfg (initScanSt rootName) dname d none true (initScanSt_inv rootName)
  refine ⟨?_, hgone, hlen⟩
  intro o ho
  obtain ⟨hbo, hgo⟩ := hobs o ho
  rw [hbo]
  have hfl : o.flushedAtObs.filter (fun k => idPresent o.entriesAtObs k) = [] := by
    rw [List.filter_eq_nil_iff]
    intro k hk
    simp [hgo k hk]
  rw [hfl]
  simp

/-- Witness for the amended Claim C5: scanning one file with batch size 1
produces exactly one observation, at which nothing flushed is resident. -/
theorem CLAIM_C5_witness :
    (⟨[], [(0, ⟨"r", none, true, none⟩)], [1], 1⟩ : ObsRec) ∈
      (scanDir cfgScanW (initScanSt "r") "r" treeScanW none true).obs ∧
    (⟨[], [(0, ⟨"r", none, true, none⟩)], [1], 1⟩ : ObsRec).batchAtObs.length +
      ((⟨[], [(0, ⟨"r", none, true, none⟩)], [1], 1⟩ : ObsRec).flushedAtObs.filter
        (fun k => idPresent (⟨[], [(0, ⟨"r", none, true, none⟩)], [1], 1⟩ : ObsRec).entriesAtObs k)).length ≤
      cfgScanW.batchSize :=
  ⟨by decide,
    (CLAIM_C5 cfgScanW "r" "r" treeScanW).1
      (⟨[], [(0, ⟨"r", none, true, none⟩)], [1], 1⟩ : ObsRec) (by decide)⟩

/-- Counterexample to Claim C5 as stated: scanning a tree whose only file
sits in a subdirectory flushes one batch to the store (one commit), but the
`on_batch` callback passed to the top-level call is never invoked, because
the recursive call receives `None` — so the callback is not invoked once
per flushed batch. -/
theorem CLAIM_C5_counterexample :
    (scanDir cfgScanCx (initScanSt "r") "r" treeScanCx none true).dbCommits = 1 ∧
    (scanDir cfgScanCx (initScanSt "r") "r" treeScanCx none true).obs.length = 0 :=
  ⟨by decide, by decide⟩

end Linkfield
